import Mathlib

/-!
Verification of the megascops indexing/search pipeline (src/megascops/main.py).

The embedding models Python's insertion-ordered dictionaries as association
lists (`List (k × v)`), Python sets as duplicate-free insertion lists, strings
as `List Char` where character-level structure matters, and floating-point
weights as real numbers.  Every operation of the pipeline — the character
tokenizer, the frequency accumulation of `index`, the TF-IDF builder, the JSON
persistence of the index, and the query ranking of `search` — is translated
directly from the source.
-/

set_option maxHeartbeats 1000000

namespace Megascops

variable {α : Type} {β : Type} [DecidableEq α]

/-- Python `d.get(k)`: value of the first (unique) entry with key `k`. -/
def dictGet : List (α × β) → α → Option β
  | [], _ => none
  | p :: d, k => if p.1 = k then some p.2 else dictGet d k

/-- Python `d.get(k, v0)` / `defaultdict` read. -/
def dictGetD (d : List (α × β)) (k : α) (v₀ : β) : β :=
  (dictGet d k).getD v₀

/-- Python `d[k] = v`: replace in place if the key is present, else append. -/
def dictSet : List (α × β) → α → β → List (α × β)
  | [], k, v => [(k, v)]
  | p :: d, k, v => if p.1 = k then (k, v) :: d else p :: dictSet d k v

/-- Python `k in d`. -/
def hasKey (d : List (α × β)) (k : α) : Bool :=
  (dictGet d k).isSome

/-- Python `s.add(x)` on a set, modelled as a duplicate-free list. -/
def setAdd (l : List α) (x : α) : List α :=
  if x ∈ l then l else l ++ [x]

/-- One step of `Tokenizer.__next__`: strip leading whitespace; if nothing
remains signal exhaustion, otherwise chop either the maximal alphanumeric run
(lowercased) or a single non-alphanumeric character, returning the token and
the tokenizer's remaining content. -/
def tokNext (s : List Char) : Option (List Char × List Char) :=
  match s.dropWhile Char.isWhitespace with
  | [] => none
  | c :: rest =>
    if c.isAlphanum then
      some (((c :: rest).takeWhile Char.isAlphanum).map Char.toLower,
            (c :: rest).dropWhile Char.isAlphanum)
    else
      some ([c], rest)

/-- Fuel-indexed iteration of `tokNext`; with fuel above the content length it
collects the full token sequence of a `Tokenizer`. -/
def tokenizeF : ℕ → List Char → List (List Char)
  | 0, _ => []
  | f + 1, s =>
    match tokNext s with
    | none => []
    | some (t, s₂) => t :: tokenizeF f s₂

/-- The full token sequence produced by iterating `Tokenizer(content)`. -/
def tokenize (s : List Char) : List (List Char) :=
  tokenizeF (s.length + 1) s

/-- Fuel-indexed run of a `Tokenizer` object from a given `_content` state:
returns the tokens emitted and the final `_content` left in the object. -/
def runIterF : ℕ → List Char → List (List Char) × List Char
  | 0, s => ([], s)
  | f + 1, s =>
    match tokNext s with
    | none => ([], s.dropWhile Char.isWhitespace)
    | some (t, s₂) =>
      let r := runIterF f s₂
      (t :: r.1, r.2)

/-- Run a `Tokenizer` object to exhaustion: emitted tokens and final state. -/
def runIter (s : List Char) : List (List Char) × List Char :=
  runIterF (s.length + 1) s

/-- A token, as stored in the frequency tables (a Python string). -/
abbrev Tok := List Char

/-- Per-document raw term-frequency table (`rtf[doc]`, a `defaultdict(int)`). -/
abbrev DTF := List (Tok × ℕ)

/-- `RawTermFreq`: document name to its raw term-frequency table. -/
abbrev RTF := List (String × DTF)

/-- `TermDocMap`: token to the set of documents containing it. -/
abbrev TDM := List (Tok × List String)

/-- `TermFreqInverseDocFreq`: token to document-to-weight map. -/
abbrev Tfidf := List (Tok × List (String × ℝ))

/-- Body of the token loop of `index`: `rtf[doc][term] += 1` followed by
`tdm[term].add(doc)`. -/
def procTok (doc : String) (st : DTF × TDM) (t : Tok) : DTF × TDM :=
  (dictSet st.1 t (dictGetD st.1 t 0 + 1),
   dictSet st.2 t (setAdd (dictGetD st.2 t []) doc))

/-- Body of the document loop of `index`: start `rtf[doc]` from an empty
`defaultdict(int)`, then run the token loop over the document's tokens. -/
def procDoc (st : RTF × TDM) (d : String × String) : RTF × TDM :=
  let inner := (tokenize d.2.toList).foldl (procTok d.1) ([], st.2)
  (dictSet st.1 d.1 inner.1, inner.2)

/-- The frequency-accumulation phase of `index` over the yielded
(docname, text) pairs. -/
def accumulate (docs : List (String × String)) : RTF × TDM :=
  docs.foldl procDoc ([], [])

/-- `sum(dtf.values())`. -/
def sumCounts (dtf : DTF) : ℕ :=
  (dtf.map Prod.snd).sum

/-- The weight `index` computes for one (term, document) pair:
`tf = c / sum(dtf.values())`, `idf = math.log(N / len(tdm[term]))`,
weight `tf * idf`. -/
noncomputable def weight (c total N df : ℕ) : ℝ :=
  (c : ℝ) / (total : ℝ) * Real.log ((N : ℝ) / (df : ℝ))

/-- Body of the inner TF-IDF loop: `tfidf[term][doc] = tf * idf` on the
`defaultdict(dict)`. -/
noncomputable def addDocTerm (tdm : TDM) (N : ℕ) (doc : String) (total : ℕ)
    (acc : Tfidf) (p : Tok × ℕ) : Tfidf :=
  dictSet acc p.1
    (dictSet (dictGetD acc p.1 []) doc
      (weight p.2 total N (dictGetD tdm p.1 []).length))

/-- The TF-IDF building phase of `index`. -/
noncomputable def tfidfOf (rtf : RTF) (tdm : TDM) (N : ℕ) : Tfidf :=
  rtf.foldl (fun acc q => q.2.foldl (addDocTerm tdm N q.1 (sumCounts q.2)) acc) []

/-- A `DocumentCorpus`: the remaining `_docnames` list and the `_len` field
captured at construction time. -/
structure Corpus where
  docnames : List String
  lenVal : ℕ

/-- `DocumentCorpus.__init__` over an already-scanned list of names. -/
def mkCorpus (names : List String) : Corpus :=
  ⟨names, names.length⟩

/-- `DocumentCorpus.__len__`: returns the cached `_len` field. -/
def corpusLen (c : Corpus) : ℕ :=
  c.lenVal

/-- `DocumentCorpus.__next__`: pop the first docname, extract its text. -/
def corpusNext (extract : String → String) (c : Corpus) :
    Option ((String × String) × Corpus) :=
  match c.docnames with
  | [] => none
  | n :: rest => some ((n, extract n), ⟨rest, c.lenVal⟩)

/-- Fuel-indexed iteration of a corpus to exhaustion. -/
def drainF : ℕ → (String → String) → Corpus → List (String × String) × Corpus
  | 0, _, c => ([], c)
  | f + 1, ex, c =>
    match corpusNext ex c with
    | none => ([], c)
    | some (d, c₂) =>
      let r := drainF f ex c₂
      (d :: r.1, r.2)

/-- Iterate a corpus to exhaustion, as the document loop of `index` does. -/
def drain (ex : String → String) (c : Corpus) : List (String × String) × Corpus :=
  drainF c.docnames.length ex c

/-- The `index` operation over an abstract document source (`names` is the
scan result, `extract` the text extractor): iterate the corpus, accumulate
frequencies, take `N = len(corpus)` after the iteration, and build the TF-IDF
index.  Returns the index together with the `N` used in every idf. -/
noncomputable def indexRun (names : List String) (extract : String → String) :
    Tfidf × ℕ :=
  let c := mkCorpus names
  let dr := drain extract c
  let ac := accumulate dr.1
  let N := corpusLen dr.2
  (tfidfOf ac.1 ac.2 N, N)

/-- The score-accumulation loop of `search`:
`cummulative_score[doc] += score` over `tfidf.get(term, {}).items()` for each
query token in order. -/
noncomputable def accumScores (tfidf : Tfidf) (terms : List Tok) :
    List (String × ℝ) :=
  terms.foldl
    (fun cs term =>
      (dictGetD tfidf term []).foldl
        (fun cs₂ p => dictSet cs₂ p.1 (dictGetD cs₂ p.1 0 + p.2)) cs)
    []

/-- Stable descending insertion by score: the element goes after every
element with a score greater than or equal to its own. -/
def insertDesc [LinearOrder β] (x : α × β) : List (α × β) → List (α × β)
  | [] => [x]
  | y :: ys => if y.2 ≤ x.2 then x :: y :: ys else y :: insertDesc x ys

/-- Python `sorted(l, key=lambda x: x[1], reverse=True)`: a stable sort,
descending on the second component. -/
def sortDesc [LinearOrder β] (l : List (α × β)) : List (α × β) :=
  l.foldr insertDesc []

/-- The ranked output of `search` against a loaded index. -/
noncomputable def rank (tfidf : Tfidf) (query : String) : List (String × ℝ) :=
  sortDesc (accumScores tfidf (tokenize query.toList))

/-- The JSON values produced and consumed by the index store: numbers and
string-keyed objects (insertion-ordered, as Python dicts are). -/
inductive Jval
  | num (x : ℝ)
  | obj (fields : List (String × Jval))

/-- Serialize one posting map (`tfidf[term]`) as a JSON object. -/
def dumpInner (p : List (String × ℝ)) : List (String × Jval) :=
  p.map (fun q => (q.1, .num q.2))

/-- `json.dump(tfidf, f)`: the index as a two-level JSON object. -/
def dumpTfidf (t : Tfidf) : Jval :=
  .obj (t.map (fun p => (p.1.asString, .obj (dumpInner p.2))))

/-- Read a JSON number back as a weight. -/
def loadNum : Jval → Option ℝ
  | .num x => some x
  | .obj _ => none

/-- Read one posting object back. -/
def loadInner : List (String × Jval) → Option (List (String × ℝ))
  | [] => some []
  | p :: fs =>
    match loadNum p.2, loadInner fs with
    | some x, some r => some ((p.1, x) :: r)
    | _, _ => none

/-- Read the top-level entries of the artifact back. -/
def loadEntries : List (String × Jval) → Option Tfidf
  | [] => some []
  | p :: fs =>
    match p.2 with
    | .obj g =>
      match loadInner g, loadEntries fs with
      | some inner, some r => some ((p.1.toList, inner) :: r)
      | _, _ => none
    | .num _ => none

/-- `json.load(f)`: read the two-level object back into an index. -/
def loadTfidf : Jval → Option Tfidf
  | .obj fs => loadEntries fs
  | .num _ => none

/-- The `search` operation combined with `main`'s exit behaviour: a missing
artifact prints the report and exits with status 1; otherwise the loaded
index (the deserialized dump, which `loadTfidf_dumpTfidf` identifies with the
index itself) is ranked against the query and the run exits with status 0. -/
noncomputable def searchRun (artifact : Option Tfidf) (query : String) :
    ℕ × List (String × ℝ) :=
  match artifact with
  | none => (1, [])
  | some t => (0, rank t query)

/-- Closed form of the per-document raw count table built by the token loop
(`rtf[doc][term] += 1` over the document's tokens). -/
def docTable (text : String) : DTF :=
  (tokenize text.toList).foldl (fun a t => dictSet a t (dictGetD a t 0 + 1)) []

/-- All document names mentioned by any posting of an index. -/
def docsOf (t : Tfidf) : List String :=
  (t.map (fun p => p.2.map Prod.fst)).flatten

/-- The weight an index stores for a given (term, document) pair. -/
def wlookup (t : Tfidf) (term : Tok) (doc : String) : Option ℝ :=
  dictGet (dictGetD t term []) doc

/-- The Scenario 1 corpus text extractor. -/
def scenario1Extract (n : String) : String :=
  if n = "a.pdf" then "cat dog cat" else "dog dog fish"

/-- A two-document corpus whose query-time encounter order differs from the
discovery order: querying "q p" meets b.pdf before a.pdf. -/
def tieExtract (n : String) : String :=
  if n = "a.pdf" then "p" else "q"

/-! ## Tokenizer lemmas -/

/-- The case-folding the tokenizer applies to a character: alphanumeric
characters are lowercased, punctuation is emitted verbatim. -/
def foldChar (c : Char) : Char :=
  if c.isAlphanum then c.toLower else c

lemma ws_not_alnum {c : Char} (h : c.isWhitespace = true) :
    c.isAlphanum = false := by
  simp [Char.isWhitespace] at h
  rcases h with ((h | h) | h) | h <;> subst h <;> decide

lemma alnum_not_ws {c : Char} (h : c.isAlphanum = true) :
    c.isWhitespace = false := by
  cases hw : c.isWhitespace with
  | false => rfl
  | true => rw [ws_not_alnum hw] at h; exact absurd h (by simp)

lemma length_dropWhile_le (p : Char → Bool) (l : List Char) :
    (l.dropWhile p).length ≤ l.length := by
  conv_rhs => rw [← List.takeWhile_append_dropWhile p l]
  rw [List.length_append]
  omega

lemma dropWhile_head {p : Char → Bool} {l : List Char} {c : Char}
    {rest : List Char} (h : l.dropWhile p = c :: rest) : p c = false := by
  have h₂ := List.head?_dropWhile_not p l
  rw [h] at h₂
  simpa using h₂

lemma filter_dropWhile_ws (s : List Char) :
    (s.dropWhile Char.isWhitespace).filter (fun c => !c.isWhitespace)
      = s.filter (fun c => !c.isWhitespace) := by
  induction s with
  | nil => rfl
  | cons a l ih =>
    cases ha : a.isWhitespace with
    | false => simp [List.dropWhile_cons, ha, List.filter_cons]
    | true => simp [List.dropWhile_cons, ha, List.filter_cons, ih]

lemma tokNext_eq_nil {s : List Char}
    (hd : s.dropWhile Char.isWhitespace = []) : tokNext s = none := by
  unfold tokNext
  rw [hd]

lemma tokNext_eq_cons {s rest : List Char} {c : Char}
    (hd : s.dropWhile Char.isWhitespace = c :: rest) :
    tokNext s =
      if c.isAlphanum then
        some (((c :: rest).takeWhile Char.isAlphanum).map Char.toLower,
              (c :: rest).dropWhile Char.isAlphanum)
      else some ([c], rest) := by
  unfold tokNext
  rw [hd]

lemma tokNext_none {s : List Char} (h : tokNext s = none) :
    s.filter (fun c => !c.isWhitespace) = []
      ∧ s.dropWhile Char.isWhitespace = [] := by
  cases hd : s.dropWhile Char.isWhitespace with
  | nil =>
    refine ⟨?_, rfl⟩
    rw [← filter_dropWhile_ws, hd]
    rfl
  | cons c rest =>
    rw [tokNext_eq_cons hd] at h
    by_cases hc : c.isAlphanum = true <;> simp [hc] at h

lemma tokNext_some {s t : List Char} {s₂ : List Char}
    (h : tokNext s = some (t, s₂)) :
    t ≠ [] ∧
    ((∃ c, c.isAlphanum = false ∧ t = [c]) ∨
      (∃ r, r ≠ [] ∧ (∀ c ∈ r, c.isAlphanum = true) ∧ t = r.map Char.toLower)) ∧
    (s.filter (fun c => !c.isWhitespace)).map foldChar
      = t ++ (s₂.filter (fun c => !c.isWhitespace)).map foldChar ∧
    s₂.length < s.length := by
  cases hd : s.dropWhile Char.isWhitespace with
  | nil => rw [tokNext_eq_nil hd] at h; exact absurd h (by simp)
  | cons c rest =>
    rw [tokNext_eq_cons hd] at h
    have hcw : c.isWhitespace = false := dropWhile_head hd
    have hlen : rest.length + 1 ≤ s.length := by
      have h₂ := length_dropWhile_le Char.isWhitespace s
      rw [hd] at h₂
      simpa using h₂
    have hfs : s.filter (fun c => !c.isWhitespace)
        = (c :: rest).filter (fun c => !c.isWhitespace) := by
      rw [← filter_dropWhile_ws, hd]
    cases hc : c.isAlphanum with
    | true =>
      rw [if_pos hc] at h
      simp only [Option.some.injEq, Prod.mk.injEq] at h
      obtain ⟨ht, hs₂⟩ := h
      have htw : (c :: rest).takeWhile Char.isAlphanum
          = c :: rest.takeWhile Char.isAlphanum := by
        simp [List.takeWhile_cons, hc]
      refine ⟨?_, ?_, ?_, ?_⟩
      · rw [← ht, htw]; simp
      · right
        exact ⟨(c :: rest).takeWhile Char.isAlphanum,
          by rw [htw]; simp,
          fun a ha => List.mem_takeWhile_imp ha, ht.symm⟩
      · rw [hfs]
        conv_lhs => rw [← List.takeWhile_append_dropWhile Char.isAlphanum (c :: rest)]
        rw [List.filter_append, List.map_append]
        have h₃ : ((c :: rest).takeWhile Char.isAlphanum).filter
            (fun c => !c.isWhitespace) = (c :: rest).takeWhile Char.isAlphanum := by
          refine List.filter_eq_self.mpr fun a ha => ?_
          rw [alnum_not_ws (List.mem_takeWhile_imp ha)]
          rfl
        have h₄ : ((c :: rest).takeWhile Char.isAlphanum).map foldChar
            = ((c :: rest).takeWhile Char.isAlphanum).map Char.toLower :=
          List.map_congr_left fun a ha => by
            simp [foldChar, List.mem_takeWhile_imp ha]
        rw [h₃, h₄, ← ht, ← hs₂]
      · rw [← hs₂]
        have h₅ : (c :: rest).dropWhile Char.isAlphanum
            = rest.dropWhile Char.isAlphanum := by
          simp [List.dropWhile_cons, hc]
        rw [h₅]
        have h₆ := length_dropWhile_le Char.isAlphanum rest
        omega
    | false =>
      rw [if_neg (by rw [hc]; simp)] at h
      simp only [Option.some.injEq, Prod.mk.injEq] at h
      obtain ⟨ht, hs₂⟩ := h
      refine ⟨by rw [← ht]; simp, Or.inl ⟨c, hc, ht.symm⟩, ?_,
        by rw [← hs₂]; omega⟩
      rw [hfs, ← hs₂, List.filter_cons]
      have h₇ : (!c.isWhitespace) = true := by rw [hcw]; rfl
      rw [if_pos h₇, List.map_cons]
      have h₈ : foldChar c = c := by simp [foldChar, hc]
      rw [h₈, ← ht]
      rfl

lemma tokenizeF_congr :
    ∀ (n f₁ f₂ : ℕ) (s : List Char), s.length ≤ n → s.length < f₁ →
      s.length < f₂ → tokenizeF f₁ s = tokenizeF f₂ s := by
  intro n
  induction n with
  | zero =>
    intro f₁ f₂ s hs h₁ h₂
    have hs0 : s = [] := List.length_eq_zero.mp (Nat.le_zero.mp hs)
    subst hs0
    cases f₁ with
    | zero => omega
    | succ g₁ =>
      cases f₂ with
      | zero => omega
      | succ g₂ =>
        rw [tokenizeF, tokenizeF, tokNext_eq_nil (List.dropWhile_nil ..)]
  | succ n ih =>
    intro f₁ f₂ s hs h₁ h₂
    cases f₁ with
    | zero => omega
    | succ g₁ =>
      cases f₂ with
      | zero => omega
      | succ g₂ =>
        rw [tokenizeF, tokenizeF]
        cases htn : tokNext s with
        | none => rfl
        | some ts =>
          obtain ⟨t, s₂⟩ := ts
          have hlt := (tokNext_some htn).2.2.2
          exact congrArg (t :: ·) (ih g₁ g₂ s₂ (by omega) (by omega) (by omega))

lemma tokenize_eq (s : List Char) :
    tokenize s =
      match tokNext s with
      | none => []
      | some (t, s₂) => t :: tokenize s₂ := by
  rw [tokenize, tokenizeF]
  cases htn : tokNext s with
  | none => rfl
  | some ts =>
    obtain ⟨t, s₂⟩ := ts
    have hlt := (tokNext_some htn).2.2.2
    exact congrArg (t :: ·)
      (tokenizeF_congr s₂.length s.length (s₂.length + 1) s₂ le_rfl hlt (by omega))

lemma tokenize_spec_aux :
    ∀ (n : ℕ) (s : List Char), s.length ≤ n →
      (∀ t ∈ tokenize s, t ≠ []) ∧
      (∀ t ∈ tokenize s,
        (∃ c, c.isAlphanum = false ∧ t = [c]) ∨
          (∃ r, r ≠ [] ∧ (∀ c ∈ r, c.isAlphanum = true) ∧
            t = r.map Char.toLower)) ∧
      (tokenize s).flatten
        = (s.filter (fun c => !c.isWhitespace)).map foldChar := by
  intro n
  induction n with
  | zero =>
    intro s hs
    have hs0 : s = [] := List.length_eq_zero.mp (Nat.le_zero.mp hs)
    subst hs0
    refine ⟨by simp [tokenize, tokenizeF, tokNext], by simp [tokenize, tokenizeF, tokNext], ?_⟩
    simp [tokenize, tokenizeF, tokNext]
  | succ n ih =>
    intro s hs
    rw [tokenize_eq s]
    cases htn : tokNext s with
    | none =>
      have hf := (tokNext_none htn).1
      refine ⟨by simp, by simp, ?_⟩
      rw [hf]
      rfl
    | some ts =>
      obtain ⟨t, s₂⟩ := ts
      obtain ⟨hne, hkind, hrec, hlt⟩ := tokNext_some htn
      obtain ⟨ih₁, ih₂, ih₃⟩ := ih s₂ (by omega)
      refine ⟨?_, ?_, ?_⟩
      · intro t₂ ht₂
        rcases List.mem_cons.mp ht₂ with h | h
        · exact h ▸ hne
        · exact ih₁ t₂ h
      · intro t₂ ht₂
        rcases List.mem_cons.mp ht₂ with h | h
        · exact h ▸ hkind
        · exact ih₂ t₂ h
      · rw [List.flatten_cons, ih₃, hrec]

lemma runIterF_eq :
    ∀ (f : ℕ) (s : List Char), s.length < f →
      runIterF f s = (tokenizeF f s, []) := by
  intro f
  induction f with
  | zero => intro s h; omega
  | succ f ih =>
    intro s h
    rw [runIterF, tokenizeF]
    cases htn : tokNext s with
    | none => rw [(tokNext_none htn).2]
    | some ts =>
      obtain ⟨t, s₂⟩ := ts
      have hlt := (tokNext_some htn).2.2.2
      show (t :: (runIterF f s₂).1, (runIterF f s₂).2)
        = (t :: tokenizeF f s₂, [])
      rw [ih s₂ (by omega)]

lemma runIter_eq (s : List Char) : runIter s = (tokenize s, []) :=
  runIterF_eq (s.length + 1) s (by omega)

/-! ## Claim theorems: tokenizer -/

/-- C2: for every input string the tokenizer emits the maximal alphanumeric
runs lowercased and each remaining non-alphanumeric character as its own
singleton token; no emitted token is empty, and concatenating the tokens
(modulo the case-folding and the removed whitespace) reconstructs the
non-whitespace content.  Termination is by construction: `tokenize` is a
total function. -/
theorem tokenizer_emission_spec (s : List Char) :
    (∀ t ∈ tokenize s, t ≠ []) ∧
    (∀ t ∈ tokenize s,
      (∃ c, c.isAlphanum = false ∧ t = [c]) ∨
        (∃ r, r ≠ [] ∧ (∀ c ∈ r, c.isAlphanum = true) ∧
          t = r.map Char.toLower)) ∧
    (tokenize s).flatten
      = (s.filter (fun c => !c.isWhitespace)).map foldChar :=
  tokenize_spec_aux s.length s le_rfl

/-- C5 counterexample: a `Tokenizer` object is one-shot.  Running the object
built over `"a"` to exhaustion emits the token `"a"` and leaves its
`_content` empty, so iterating the same object a second time emits no tokens
at all — not the same sequence as the first iteration. -/
theorem tokenizer_second_iteration_differs :
    (runIter ['a']).1 = [['a']] ∧
    (runIter (runIter ['a']).2).1 = [] ∧
    (runIter (runIter ['a']).2).1 ≠ (runIter ['a']).1 := by
  decide

/-- C5 amended: the token sequence is restartable only from scratch.  A full
run of a `Tokenizer` object yields exactly `tokenize` of its text — a pure
function of the text, so a fresh tokenizer over the same text reproduces the
same sequence — but the run leaves the object's cursor empty, and a second
iteration of the same exhausted object yields the empty sequence. -/
theorem tokenizer_one_shot_restart (s : List Char) :
    (runIter s).1 = tokenize s ∧
    (runIter s).2 = [] ∧
    (runIter (runIter s).2).1 = [] := by
  have h := runIter_eq s
  refine ⟨by rw [h], by rw [h], by rw [h]; rfl⟩

/-! ## Claim theorems: corpus length and exit codes -/

/-- Draining a freshly built corpus yields one (name, extracted text) pair
per scanned name, in order, and leaves the cached length untouched. -/
lemma drain_mk (names : List String) (extract : String → String) :
    drain extract (mkCorpus names)
      = (names.map (fun n => (n, extract n)), ⟨[], names.length⟩) := by
  have key : ∀ (ns : List String) (L : ℕ),
      drainF ns.length extract ⟨ns, L⟩
        = (ns.map (fun n => (n, extract n)), ⟨[], L⟩) := by
    intro ns
    induction ns with
    | nil => intro L; rfl
    | cons n rest ih =>
      intro L
      rw [List.length_cons, drainF]
      simp only [corpusNext, ih L, List.map_cons]
  rw [drain, mkCorpus]
  exact key names names.length

/-- C10: `DocumentCorpus.__len__` returns the `_len` field captured at
construction, so after `index` has drained the corpus the reported length
still equals the number of discovered documents; the `N = len(corpus)` used
by every idf computation therefore equals the total document count. -/
theorem corpus_len_invariant (names : List String) (extract : String → String) :
    (drain extract (mkCorpus names)).1 = names.map (fun n => (n, extract n)) ∧
    corpusLen (drain extract (mkCorpus names)).2 = names.length ∧
    (indexRun names extract).2 = names.length := by
  refine ⟨?_, ?_, ?_⟩
  · rw [drain_mk]
  · rw [drain_mk]
    rfl
  · show corpusLen (drain extract (mkCorpus names)).2 = names.length
    rw [drain_mk]
    rfl

/-- C9: `search` with no persisted artifact reports the missing index and
exits with status 1 (producing no ranking), while a search against an
existing index exits with status 0; neither path is a fault — `searchRun` is
a total function. -/
theorem search_exit_codes :
    (∀ q, searchRun none q = (1, [])) ∧
    (∀ t q, (searchRun (some t) q).1 = 0) := by
  exact ⟨fun q => rfl, fun t q => rfl⟩

/-! ## Claim theorems: weight monotonicity -/

/-- C8: the weight `index` computes for a (term, document) pair is monotone
in the raw count: with the document's token total, the corpus size and the
term's document frequency held fixed (`1 ≤ df ≤ N`, as is the case for any
term present in some document of the corpus), a larger raw count never
yields a smaller weight. -/
theorem weight_monotone (c c₂ total N df : ℕ) (hdf : 1 ≤ df) (hN : df ≤ N)
    (hc : c ≤ c₂) : weight c total N df ≤ weight c₂ total N df := by
  unfold weight
  have hlog : 0 ≤ Real.log ((N : ℝ) / (df : ℝ)) := by
    apply Real.log_nonneg
    rw [le_div_iff₀ (by positivity)]
    rw [one_mul]
    exact_mod_cast hN
  apply mul_le_mul_of_nonneg_right _ hlog
  have hcc : (c : ℝ) ≤ (c₂ : ℝ) := by exact_mod_cast hc
  gcongr

/-- Witness for C8 at a concrete input. -/
theorem weight_monotone_witness :
    (1 ≤ 1 ∧ 1 ≤ 2 ∧ 1 ≤ 2) ∧ weight 1 3 2 1 ≤ weight 2 3 2 1 :=
  ⟨by omega, weight_monotone 1 2 3 2 1 (by omega) (by omega) (by omega)⟩

/-! ## Claim theorems: serialization round-trip -/

lemma loadInner_dumpInner (p : List (String × ℝ)) :
    loadInner (dumpInner p) = some p := by
  induction p with
  | nil => rfl
  | cons q r ih =>
    rw [dumpInner, List.map_cons, loadInner]
    rw [show (dumpInner r) = List.map (fun q => (q.1, Jval.num q.2)) r from rfl] at ih
    rw [ih]
    rfl

/-- C7: serializing any TF-IDF index to the persisted JSON artifact as
`index` does and deserializing it as `search` does yields exactly the same
(token, document, weight) structure back. -/
theorem tfidf_roundtrip (t : Tfidf) : loadTfidf (dumpTfidf t) = some t := by
  rw [dumpTfidf, loadTfidf]
  induction t with
  | nil => rfl
  | cons p r ih =>
    simp only [List.map_cons, loadEntries, loadInner_dumpInner, ih]
    rfl

/-! ## Dictionary lemmas -/

lemma dictGet_set_self (d : List (α × β)) (k : α) (v : β) :
    dictGet (dictSet d k v) k = some v := by
  induction d with
  | nil => simp [dictSet, dictGet]
  | cons p d ih =>
    by_cases h : p.1 = k
    · simp [dictSet, h, dictGet]
    · simp [dictSet, h, dictGet, ih]

lemma dictGet_set_other (d : List (α × β)) {k k₂ : α} (v : β) (h : k ≠ k₂) :
    dictGet (dictSet d k v) k₂ = dictGet d k₂ := by
  induction d with
  | nil => simp [dictSet, dictGet, h]
  | cons p d ih =>
    by_cases hp : p.1 = k
    · subst hp
      simp [dictSet, dictGet, h]
    · simp [dictSet, hp, dictGet, ih]

lemma dictGet_mem {d : List (α × β)} {k : α} {v : β}
    (h : dictGet d k = some v) : (k, v) ∈ d := by
  induction d with
  | nil => exact absurd h (by simp [dictGet])
  | cons p d ih =>
    rw [dictGet] at h
    by_cases hp : p.1 = k
    · refine List.mem_cons.mpr (Or.inl ?_)
      rw [if_pos hp] at h
      rw [Prod.ext_iff]
      exact ⟨hp.symm, (show p.2 = v by injection h).symm⟩
    · rw [if_neg hp] at h
      exact List.mem_cons_of_mem p (ih h)

lemma hasKey_false_iff {d : List (α × β)} {k : α} :
    hasKey d k = false ↔ k ∉ d.map Prod.fst := by
  induction d with
  | nil => simp [hasKey, dictGet]
  | cons p d ih =>
    rw [hasKey] at ih ⊢
    by_cases hp : p.1 = k
    · simp [dictGet, hp]
    · simp only [dictGet, if_neg hp, List.map_cons, List.mem_cons, ih]
      constructor
      · intro h₂ h₃
        rcases h₃ with h₃ | h₃
        · exact hp h₃.symm
        · exact h₂ h₃
      · intro h₂ h₃
        exact h₂ (Or.inr h₃)

lemma dictSet_fresh {d : List (α × β)} {k : α} (v : β)
    (h : hasKey d k = false) : dictSet d k v = d ++ [(k, v)] := by
  induction d with
  | nil => rfl
  | cons p d ih =>
    rw [hasKey_false_iff, List.map_cons, List.mem_cons] at h
    push_neg at h
    rw [dictSet, if_neg (fun hp => h.1 hp.symm), List.cons_append]
    rw [ih (hasKey_false_iff.mpr h.2)]

lemma mem_dictSet {d : List (α × β)} {k : α} {v : β} {q : α × β}
    (h : q ∈ dictSet d k v) : q ∈ d ∨ q = (k, v) := by
  induction d with
  | nil =>
    rw [dictSet] at h
    exact Or.inr (by simpa using h)
  | cons p d ih =>
    rw [dictSet] at h
    by_cases hp : p.1 = k
    · rw [if_pos hp] at h
      rcases List.mem_cons.mp h with h₂ | h₂
      · exact Or.inr h₂
      · exact Or.inl (List.mem_cons_of_mem p h₂)
    · rw [if_neg hp] at h
      rcases List.mem_cons.mp h with h₂ | h₂
      · exact Or.inl (h₂ ▸ List.mem_cons_self p d)
      · rcases ih h₂ with h₃ | h₃
        · exact Or.inl (List.mem_cons_of_mem p h₃)
        · exact Or.inr h₃

lemma dictGet_map_of_nodup {γ : Type} (g : α → γ) :
    ∀ (names : List α), names.Nodup → ∀ k ∈ names,
      dictGet (names.map (fun m => (m, g m))) k = some (g k) := by
  intro names
  induction names with
  | nil => intro _ k hk; exact absurd hk (by simp)
  | cons n rest ih =>
    intro hnd k hk
    rw [List.map_cons, dictGet]
    rcases List.mem_cons.mp hk with h | h
    · rw [if_pos h.symm, h]
    · have hne : n ≠ k := fun he => (List.nodup_cons.mp hnd).1 (he ▸ h)
      rw [if_neg hne]
      exact ih (List.nodup_cons.mp hnd).2 k h

lemma hasKey_set_self (d : List (α × β)) (k : α) (v : β) :
    hasKey (dictSet d k v) k = true := by
  rw [hasKey, dictGet_set_self]
  rfl

lemma hasKey_set_other (d : List (α × β)) {k k₂ : α} (v : β) (h : k ≠ k₂) :
    hasKey (dictSet d k v) k₂ = hasKey d k₂ := by
  rw [hasKey, dictGet_set_other d v h, hasKey]

lemma dictGetD_set_self (d : List (α × β)) (k : α) (v v₀ : β) :
    dictGetD (dictSet d k v) k v₀ = v := by
  rw [dictGetD, dictGet_set_self]
  rfl

lemma dictGetD_set_other (d : List (α × β)) {k k₂ : α} (v : β) (v₀ : β)
    (h : k ≠ k₂) : dictGetD (dictSet d k v) k₂ v₀ = dictGetD d k₂ v₀ := by
  rw [dictGetD, dictGet_set_other d v h, dictGetD]

/-! ## Accumulation invariants -/

lemma procTok_fst (doc : String) :
    ∀ (ts : List Tok) (dtf : DTF) (tdm : TDM),
      (ts.foldl (procTok doc) (dtf, tdm)).1
        = ts.foldl (fun a t => dictSet a t (dictGetD a t 0 + 1)) dtf := by
  intro ts
  induction ts with
  | nil => intro dtf tdm; rfl
  | cons t ts ih =>
    intro dtf tdm
    rw [List.foldl_cons, List.foldl_cons]
    exact ih _ _

lemma counter_counts :
    ∀ (ts : List Tok) (dtf : DTF), (∀ q ∈ dtf, 1 ≤ q.2) →
      ∀ q ∈ ts.foldl (fun a t => dictSet a t (dictGetD a t 0 + 1)) dtf,
        1 ≤ q.2 := by
  intro ts
  induction ts with
  | nil => intro dtf h; exact h
  | cons t ts ih =>
    intro dtf h
    rw [List.foldl_cons]
    apply ih
    intro q hq
    rcases mem_dictSet hq with h₂ | h₂
    · exact h q h₂
    · rw [h₂]
      exact Nat.succ_le_succ (Nat.zero_le _)

lemma docTable_counts (text : String) : ∀ q ∈ docTable text, 1 ≤ q.2 :=
  counter_counts (tokenize text.toList) []
    (by intro q hq; exact absurd hq (by simp))

lemma procTok_inv (doc : String) (base : Tok → List String)
    (hfresh : ∀ t, doc ∉ base t) :
    ∀ (ts : List Tok) (dtf : DTF) (tdm : TDM),
      (∀ t, dictGetD tdm t []
        = base t ++ (if hasKey dtf t = true then [doc] else [])) →
      ∀ t, dictGetD (ts.foldl (procTok doc) (dtf, tdm)).2 t []
        = base t
          ++ (if hasKey (ts.foldl (procTok doc) (dtf, tdm)).1 t = true
              then [doc] else []) := by
  intro ts
  induction ts with
  | nil => intro dtf tdm h; exact h
  | cons t₀ ts ih =>
    intro dtf tdm h
    rw [List.foldl_cons]
    apply ih
    intro t
    show dictGetD (dictSet tdm t₀ (setAdd (dictGetD tdm t₀ []) doc)) t []
      = base t
        ++ (if hasKey (dictSet dtf t₀ (dictGetD dtf t₀ 0 + 1)) t = true
            then [doc] else [])
    by_cases ht : t₀ = t
    · subst ht
      rw [dictGetD_set_self, h t₀, if_pos (hasKey_set_self dtf t₀ _)]
      cases hk : hasKey dtf t₀ with
      | true =>
        rw [if_pos rfl, setAdd, if_pos (by simp)]
      | false =>
        rw [if_neg (by simp), List.append_nil, setAdd, if_neg (hfresh t₀)]
    · rw [dictGetD_set_other tdm _ _ ht, h t, hasKey_set_other dtf _ ht]

lemma accumulate_inv :
    ∀ (docs : List (String × String)) (rtf₀ : RTF) (tdm₀ : TDM),
      (docs.map Prod.fst).Nodup →
      (∀ n ∈ docs.map Prod.fst, hasKey rtf₀ n = false) →
      (∀ t, dictGetD tdm₀ t []
        = (rtf₀.filter (fun p => hasKey p.2 t)).map Prod.fst) →
      (docs.foldl procDoc (rtf₀, tdm₀)).1
          = rtf₀ ++ docs.map (fun d => (d.1, docTable d.2)) ∧
        ∀ t, dictGetD (docs.foldl procDoc (rtf₀, tdm₀)).2 t []
          = ((docs.foldl procDoc (rtf₀, tdm₀)).1.filter
              (fun p => hasKey p.2 t)).map Prod.fst := by
  intro docs
  induction docs with
  | nil =>
    intro rtf₀ tdm₀ hnd hfr h
    exact ⟨by simp, h⟩
  | cons d ds ih =>
    intro rtf₀ tdm₀ hnd hfr h
    have hfrd : hasKey rtf₀ d.1 = false := hfr d.1 (by simp)
    have hfresh : ∀ t, d.1 ∉ dictGetD tdm₀ t [] := by
      intro t hmem
      rw [h t] at hmem
      obtain ⟨p, hp, hp1⟩ := List.mem_map.mp hmem
      have hpm : p ∈ rtf₀ := List.mem_of_mem_filter hp
      exact hasKey_false_iff.mp hfrd
        (List.mem_map.mpr ⟨p, hpm, hp1⟩)
    have htdm := procTok_inv d.1 (fun t => dictGetD tdm₀ t []) hfresh
      (tokenize d.2.toList) [] tdm₀ (by intro t; simp [hasKey, dictGet])
    have hfst : ((tokenize d.2.toList).foldl (procTok d.1) ([], tdm₀)).1
        = docTable d.2 := procTok_fst d.1 (tokenize d.2.toList) [] tdm₀
    rw [List.foldl_cons]
    have hpd : procDoc (rtf₀, tdm₀) d
        = (rtf₀ ++ [(d.1, docTable d.2)],
           ((tokenize d.2.toList).foldl (procTok d.1) ([], tdm₀)).2) := by
      show (dictSet rtf₀ d.1 ((tokenize d.2.toList).foldl (procTok d.1) ([], tdm₀)).1,
            ((tokenize d.2.toList).foldl (procTok d.1) ([], tdm₀)).2) = _
      rw [hfst, dictSet_fresh _ hfrd]
    rw [hpd]
    have hnd₂ := List.nodup_cons.mp (by rw [List.map_cons] at hnd; exact hnd)
    have hfr₂ : ∀ n ∈ ds.map Prod.fst,
        hasKey (rtf₀ ++ [(d.1, docTable d.2)]) n = false := by
      intro n hn
      rw [hasKey_false_iff, List.map_append]
      intro hc
      rcases List.mem_append.mp hc with hc | hc
      · exact hasKey_false_iff.mp (hfr n (by rw [List.map_cons]; exact List.mem_cons_of_mem _ hn)) hc
      · have : n = d.1 := by simpa using hc
        exact hnd₂.1 (this ▸ hn)
    have hinv₂ : ∀ t,
        dictGetD ((tokenize d.2.toList).foldl (procTok d.1) ([], tdm₀)).2 t []
          = ((rtf₀ ++ [(d.1, docTable d.2)]).filter
              (fun p => hasKey p.2 t)).map Prod.fst := by
      intro t
      have hx : dictGetD ((tokenize d.2.toList).foldl (procTok d.1) ([], tdm₀)).2 t []
          = dictGetD tdm₀ t []
            ++ (if hasKey ((tokenize d.2.toList).foldl (procTok d.1) ([], tdm₀)).1 t = true
                then [d.1] else []) := htdm t
      rw [hx, h t, hfst, List.filter_append, List.map_append]
      cases hk : hasKey (docTable d.2) t with
      | true => simp [List.filter_cons, hk]
      | false => simp [List.filter_cons, hk]
    obtain ⟨ha, hb⟩ := ih (rtf₀ ++ [(d.1, docTable d.2)])
      ((tokenize d.2.toList).foldl (procTok d.1) ([], tdm₀)).2
      hnd₂.2 hfr₂ hinv₂
    refine ⟨?_, hb⟩
    rw [ha, List.map_cons, List.append_assoc]
    rfl

lemma hasKey_eq_count {dtf : DTF} (hpos : ∀ q ∈ dtf, 1 ≤ q.2) (t : Tok) :
    hasKey dtf t = decide (1 ≤ dictGetD dtf t 0) := by
  cases hk : hasKey dtf t with
  | true =>
    rw [hasKey] at hk
    obtain ⟨v, hv⟩ := Option.isSome_iff_exists.mp hk
    rw [dictGetD, hv, Option.getD_some]
    exact (decide_eq_true (hpos (t, v) (dictGet_mem hv))).symm
  | false =>
    rw [hasKey] at hk
    have hn : dictGet dtf t = none :=
      Option.not_isSome_iff_eq_none.mp (by simp [hk])
    rw [dictGetD, hn, Option.getD_none]
    simp

/-! ## Claim theorems: document frequency -/

/-- C3: for every corpus (document identifiers are distinct, as directory
scanning produces them) and every token, the document-frequency value
`len(tdm[term])` computed by the accumulation phase of `index` equals the
number of documents whose term-frequency table holds that token with count
at least 1 — repetitions inside a single document contribute nothing. -/
theorem document_frequency_correct (docs : List (String × String))
    (h : (docs.map Prod.fst).Nodup) (term : Tok) :
    (dictGetD (accumulate docs).2 term []).length
      = ((accumulate docs).1.filter
          (fun p => decide (1 ≤ dictGetD p.2 term 0))).length := by
  obtain ⟨hrtf, htdm⟩ := accumulate_inv docs [] [] h
    (by intro n hn; rfl) (by intro t; rfl)
  rw [accumulate, htdm term, List.length_map]
  congr 1
  apply List.filter_congr
  intro p hp
  have hpos : ∀ q ∈ p.2, 1 ≤ q.2 := by
    rw [hrtf, List.nil_append] at hp
    obtain ⟨dd, _, hdd⟩ := List.mem_map.mp hp
    intro q hq
    rw [← hdd] at hq
    exact docTable_counts dd.2 q hq
  exact hasKey_eq_count hpos term

/-- Witness for C3 on a concrete two-document corpus: the token "x" repeats
three times in the first document yet its document frequency is the number
of documents containing it. -/
theorem document_frequency_correct_witness :
    (([("a.pdf", "x x x"), ("b.pdf", "x y")].map Prod.fst).Nodup) ∧
    (dictGetD (accumulate [("a.pdf", "x x x"), ("b.pdf", "x y")]).2
        "x".toList []).length
      = ((accumulate [("a.pdf", "x x x"), ("b.pdf", "x y")]).1.filter
          (fun p => decide (1 ≤ dictGetD p.2 "x".toList 0))).length :=
  ⟨by decide, document_frequency_correct _ (by decide) _⟩

/-! ## Empty documents never reach the TF-IDF index -/

lemma mem_docsOf {t : Tfidf} {doc : String} :
    doc ∈ docsOf t ↔ ∃ p ∈ t, ∃ q ∈ p.2, q.1 = doc := by
  constructor
  · intro h
    rw [docsOf, List.mem_flatten] at h
    obtain ⟨l, hl, hdl⟩ := h
    obtain ⟨p, hp, hpl⟩ := List.mem_map.mp hl
    rw [← hpl] at hdl
    obtain ⟨q, hq, hq1⟩ := List.mem_map.mp hdl
    exact ⟨p, hp, q, hq, hq1⟩
  · intro ⟨p, hp, q, hq, hq1⟩
    rw [docsOf, List.mem_flatten]
    exact ⟨p.2.map Prod.fst, List.mem_map.mpr ⟨p, hp, rfl⟩,
      List.mem_map.mpr ⟨q, hq, hq1⟩⟩

lemma docsOf_addDocTerm {tdm : TDM} {N : ℕ} {doc : String} {total : ℕ}
    {acc : Tfidf} {p : Tok × ℕ} {doc₂ : String}
    (h : doc₂ ∈ docsOf (addDocTerm tdm N doc total acc p)) :
    doc₂ ∈ docsOf acc ∨ doc₂ = doc := by
  rw [mem_docsOf] at h
  obtain ⟨e, he, q, hq, hq1⟩ := h
  rw [addDocTerm] at he
  rcases mem_dictSet he with he₂ | he₂
  · exact Or.inl (mem_docsOf.mpr ⟨e, he₂, q, hq, hq1⟩)
  · rw [he₂] at hq
    rcases mem_dictSet hq with hq₂ | hq₂
    · cases hg : dictGet acc p.1 with
      | none =>
        rw [dictGetD, hg, Option.getD_none] at hq₂
        exact absurd hq₂ (by simp)
      | some inner =>
        rw [dictGetD, hg, Option.getD_some] at hq₂
        exact Or.inl (mem_docsOf.mpr ⟨(p.1, inner), dictGet_mem hg, q, hq₂, hq1⟩)
    · rw [hq₂] at hq1
      exact Or.inr hq1.symm

lemma docsOf_inner_fold {tdm : TDM} {N : ℕ} {doc : String} {total : ℕ} :
    ∀ (dtf : List (Tok × ℕ)) (acc : Tfidf) (doc₂ : String),
      doc₂ ∈ docsOf (dtf.foldl (addDocTerm tdm N doc total) acc) →
      doc₂ ∈ docsOf acc ∨ (doc₂ = doc ∧ dtf ≠ []) := by
  intro dtf
  induction dtf with
  | nil => intro acc doc₂ h; exact Or.inl h
  | cons p r ih =>
    intro acc doc₂ h
    rw [List.foldl_cons] at h
    rcases ih _ doc₂ h with h₂ | h₂
    · rcases docsOf_addDocTerm h₂ with h₃ | h₃
      · exact Or.inl h₃
      · exact Or.inr ⟨h₃, by simp⟩
    · exact Or.inr ⟨h₂.1, by simp⟩

lemma docsOf_tfidf_fold {tdm : TDM} {N : ℕ} :
    ∀ (rtf : RTF) (acc : Tfidf) (doc₂ : String),
      doc₂ ∈ docsOf (rtf.foldl
        (fun acc q => q.2.foldl (addDocTerm tdm N q.1 (sumCounts q.2)) acc) acc) →
      doc₂ ∈ docsOf acc ∨ ∃ p ∈ rtf, p.1 = doc₂ ∧ p.2 ≠ [] := by
  intro rtf
  induction rtf with
  | nil => intro acc doc₂ h; exact Or.inl h
  | cons q rtf ih =>
    intro acc doc₂ h
    rw [List.foldl_cons] at h
    rcases ih _ doc₂ h with h₂ | h₂
    · rcases docsOf_inner_fold q.2 acc doc₂ h₂ with h₃ | h₃
      · exact Or.inl h₃
      · exact Or.inr ⟨q, List.mem_cons_self q rtf, h₃.1.symm, h₃.2⟩
    · obtain ⟨p, hp, hp1, hp2⟩ := h₂
      exact Or.inr ⟨p, List.mem_cons_of_mem q hp, hp1, hp2⟩

lemma docsOf_tfidf {rtf : RTF} {tdm : TDM} {N : ℕ} {doc₂ : String}
    (h : doc₂ ∈ docsOf (tfidfOf rtf tdm N)) :
    ∃ p ∈ rtf, p.1 = doc₂ ∧ p.2 ≠ [] := by
  rw [tfidfOf] at h
  rcases docsOf_tfidf_fold rtf [] doc₂ h with h₂ | h₂
  · exact absurd h₂ (by simp [docsOf])
  · exact h₂

lemma sumCounts_pos {dtf : DTF} (hpos : ∀ q ∈ dtf, 1 ≤ q.2)
    (hne : dtf ≠ []) : 1 ≤ sumCounts dtf := by
  cases dtf with
  | nil => exact absurd rfl hne
  | cons q r =>
    have h₂ := hpos q (List.mem_cons_self q r)
    rw [sumCounts, List.map_cons, List.sum_cons]
    omega

lemma accumulate_mapped (names : List String) (extract : String → String)
    (h : names.Nodup) :
    (accumulate (names.map fun m => (m, extract m))).1
      = names.map (fun m => (m, docTable (extract m))) := by
  have hkeys : ((names.map fun m => (m, extract m)).map Prod.fst) = names := by
    rw [List.map_map]
    exact List.map_id names
  obtain ⟨hrtf, _⟩ := accumulate_inv (names.map fun m => (m, extract m)) [] []
    (by rw [hkeys]; exact h) (by intro n hn; rfl) (by intro t; rfl)
  rw [accumulate, hrtf, List.nil_append, List.map_map]
  rfl

/-- C6: a document whose text yields zero tokens is recorded by `index` with
an empty term-frequency table, still counts toward the corpus length `N`,
and contributes no (term, document) posting to the TF-IDF index; every
document that does contribute postings has a positive token total, so the
`tf` division never has a zero divisor. -/
theorem empty_document_indexing (names : List String) (extract : String → String)
    (h : names.Nodup) (n : String) (hn : n ∈ names)
    (hz : tokenize (extract n).toList = []) :
    dictGet (accumulate (names.map fun m => (m, extract m))).1 n = some [] ∧
    (indexRun names extract).2 = names.length ∧
    n ∉ docsOf (indexRun names extract).1 ∧
    ∀ p ∈ (accumulate (names.map fun m => (m, extract m))).1,
      p.2 ≠ [] → 1 ≤ sumCounts p.2 := by
  have hmapped := accumulate_mapped names extract h
  have hdocT : docTable (extract n) = [] := by
    rw [docTable, hz]
    rfl
  have hidx : (indexRun names extract).1
      = tfidfOf (accumulate (names.map fun m => (m, extract m))).1
          (accumulate (names.map fun m => (m, extract m))).2 names.length := by
    show tfidfOf (accumulate (drain extract (mkCorpus names)).1).1
        (accumulate (drain extract (mkCorpus names)).1).2
        (corpusLen (drain extract (mkCorpus names)).2) = _
    rw [drain_mk]
    rfl
  refine ⟨?_, ?_, ?_, ?_⟩
  · rw [hmapped, dictGet_map_of_nodup (fun m => docTable (extract m)) names h n hn,
      hdocT]
  · show corpusLen (drain extract (mkCorpus names)).2 = names.length
    rw [drain_mk]
    rfl
  · intro hc
    rw [hidx] at hc
    obtain ⟨p, hp, hp1, hp2⟩ := docsOf_tfidf hc
    rw [hmapped] at hp
    obtain ⟨m, _, hm⟩ := List.mem_map.mp hp
    apply hp2
    rw [← hm] at hp1 ⊢
    show docTable (extract m) = []
    have hmn : m = n := hp1
    rw [hmn, hdocT]
  · intro p hp hne
    rw [hmapped] at hp
    obtain ⟨m, _, hm⟩ := List.mem_map.mp hp
    apply sumCounts_pos _ hne
    intro q hq
    rw [← hm] at hq
    exact docTable_counts (extract m) q hq

/-- Witness for C6: a two-document corpus whose second document extracts to
the empty string. -/
theorem empty_document_indexing_witness :
    (["a.pdf", "b.pdf"].Nodup ∧ "b.pdf" ∈ ["a.pdf", "b.pdf"] ∧
      tokenize ((fun m => if m = "a.pdf" then "cat" else "") "b.pdf").toList = []) ∧
    (dictGet (accumulate (["a.pdf", "b.pdf"].map
        fun m => (m, (fun m => if m = "a.pdf" then "cat" else "") m))).1 "b.pdf"
      = some [] ∧
    (indexRun ["a.pdf", "b.pdf"] (fun m => if m = "a.pdf" then "cat" else "")).2
      = ["a.pdf", "b.pdf"].length ∧
    "b.pdf" ∉ docsOf (indexRun ["a.pdf", "b.pdf"]
      (fun m => if m = "a.pdf" then "cat" else "")).1 ∧
    ∀ p ∈ (accumulate (["a.pdf", "b.pdf"].map
        fun m => (m, (fun m => if m = "a.pdf" then "cat" else "") m))).1,
      p.2 ≠ [] → 1 ≤ sumCounts p.2) :=
  ⟨⟨by decide, by decide, by decide⟩,
    empty_document_indexing ["a.pdf", "b.pdf"]
      (fun m => if m = "a.pdf" then "cat" else "")
      (by decide) "b.pdf" (by decide) (by decide)⟩

/-! ## Concrete scenario computations -/

lemma weight_2321 : weight 2 3 2 1 = 2 / 3 * Real.log 2 := by
  rw [weight]
  norm_num

lemma weight_1322 : weight 1 3 2 2 = 0 := by
  rw [weight]
  norm_num

lemma weight_2322 : weight 2 3 2 2 = 0 := by
  rw [weight]
  norm_num

/-- C1: on the Scenario 1 corpus (discovered in order a.pdf, b.pdf with texts
"cat dog cat" and "dog dog fish", `N = 2`), `index` stores for every present
(term, document) pair exactly `(raw count / document token total) *
ln(N / df)`; in particular "cat" in a.pdf weighs `(2/3) ln 2` and "dog"
weighs `0` in both documents. -/
theorem index_scenario1_weights :
    (indexRun ["a.pdf", "b.pdf"] scenario1Extract).1
      = [("cat".toList, [("a.pdf", (2 / 3 : ℝ) * Real.log (2 / 1))]),
         ("dog".toList, [("a.pdf", (1 / 3 : ℝ) * Real.log (2 / 2)),
                         ("b.pdf", (2 / 3 : ℝ) * Real.log (2 / 2))]),
         ("fish".toList, [("b.pdf", (1 / 3 : ℝ) * Real.log (2 / 1))])] ∧
    wlookup (indexRun ["a.pdf", "b.pdf"] scenario1Extract).1 "cat".toList "a.pdf"
      = some (2 / 3 * Real.log 2) ∧
    wlookup (indexRun ["a.pdf", "b.pdf"] scenario1Extract).1 "dog".toList "a.pdf"
      = some 0 ∧
    wlookup (indexRun ["a.pdf", "b.pdf"] scenario1Extract).1 "dog".toList "b.pdf"
      = some 0 := by
  have h1 : (indexRun ["a.pdf", "b.pdf"] scenario1Extract).1
      = [("cat".toList, [("a.pdf", weight 2 3 2 1)]),
         ("dog".toList, [("a.pdf", weight 1 3 2 2), ("b.pdf", weight 2 3 2 2)]),
         ("fish".toList, [("b.pdf", weight 1 3 2 1)])] := rfl
  have hcat : wlookup (indexRun ["a.pdf", "b.pdf"] scenario1Extract).1
      "cat".toList "a.pdf" = some (weight 2 3 2 1) := rfl
  have hdoga : wlookup (indexRun ["a.pdf", "b.pdf"] scenario1Extract).1
      "dog".toList "a.pdf" = some (weight 1 3 2 2) := rfl
  have hdogb : wlookup (indexRun ["a.pdf", "b.pdf"] scenario1Extract).1
      "dog".toList "b.pdf" = some (weight 2 3 2 2) := rfl
  refine ⟨?_, ?_, ?_, ?_⟩
  · rw [h1]
    simp only [weight]
    norm_num
  · rw [hcat, weight_2321]
  · rw [hdoga, weight_1322]
  · rw [hdogb, weight_2322]

/-! ## Ranking: order of the output -/

omit [DecidableEq α] in
lemma mem_insertDesc [LinearOrder β] {x b : α × β} :
    ∀ {l : List (α × β)}, b ∈ insertDesc x l → b ∈ l ∨ b = x := by
  intro l
  induction l with
  | nil =>
    intro h
    rw [insertDesc] at h
    exact Or.inr (by simpa using h)
  | cons y ys ih =>
    intro h
    rw [insertDesc] at h
    by_cases hc : y.2 ≤ x.2
    · rw [if_pos hc] at h
      rcases List.mem_cons.mp h with h₂ | h₂
      · exact Or.inr h₂
      · exact Or.inl h₂
    · rw [if_neg hc] at h
      rcases List.mem_cons.mp h with h₂ | h₂
      · exact Or.inl (h₂ ▸ List.mem_cons_self y ys)
      · rcases ih h₂ with h₃ | h₃
        · exact Or.inl (List.mem_cons_of_mem y h₃)
        · exact Or.inr h₃

omit [DecidableEq α] in
lemma sorted_insertDesc [LinearOrder β] (x : α × β) (l : List (α × β))
    (h : List.Sorted (fun a b => b.2 ≤ a.2) l) :
    List.Sorted (fun a b => b.2 ≤ a.2) (insertDesc x l) := by
  induction l with
  | nil => simp [insertDesc]
  | cons y ys ih =>
    rw [insertDesc]
    have hs := List.sorted_cons.mp h
    by_cases hc : y.2 ≤ x.2
    · rw [if_pos hc, List.sorted_cons]
      refine ⟨?_, h⟩
      intro b hb
      rcases List.mem_cons.mp hb with hb | hb
      · rw [hb]
        exact hc
      · exact le_trans (hs.1 b hb) hc
    · rw [if_neg hc, List.sorted_cons]
      refine ⟨?_, ih hs.2⟩
      intro b hb
      rcases mem_insertDesc hb with hb₂ | hb₂
      · exact hs.1 b hb₂
      · rw [hb₂]
        exact (not_le.mp hc).le

omit [DecidableEq α] in
lemma sorted_sortDesc [LinearOrder β] (l : List (α × β)) :
    List.Sorted (fun a b => b.2 ≤ a.2) (sortDesc l) := by
  induction l with
  | nil => simp [sortDesc]
  | cons x l ih =>
    rw [sortDesc, List.foldr_cons]
    exact sorted_insertDesc x _ ih

omit [DecidableEq α] in
lemma perm_insertDesc [LinearOrder β] (x : α × β) :
    ∀ l : List (α × β), List.Perm (insertDesc x l) (x :: l) := by
  intro l
  induction l with
  | nil => rw [insertDesc]
  | cons y ys ih =>
    rw [insertDesc]
    by_cases hc : y.2 ≤ x.2
    · rw [if_pos hc]
    · rw [if_neg hc]
      exact (ih.cons y).trans (List.Perm.swap x y ys)

omit [DecidableEq α] in
lemma perm_sortDesc [LinearOrder β] :
    ∀ l : List (α × β), List.Perm (sortDesc l) l := by
  intro l
  induction l with
  | nil => exact List.Perm.refl _
  | cons x l ih =>
    rw [sortDesc, List.foldr_cons]
    exact (perm_insertDesc x _).trans (ih.cons x)

omit [DecidableEq α] in
lemma filter_insertDesc [LinearOrder β] [DecidableEq β] (x : α × β) (s : β) :
    ∀ l : List (α × β),
      (insertDesc x l).filter (fun y => decide (y.2 = s))
        = (if x.2 = s then [x] else [])
          ++ l.filter (fun y => decide (y.2 = s)) := by
  intro l
  induction l with
  | nil =>
    rw [insertDesc]
    by_cases hx : x.2 = s <;> simp [hx]
  | cons y ys ih =>
    rw [insertDesc]
    by_cases hc : y.2 ≤ x.2
    · rw [if_pos hc, List.filter_cons]
      by_cases hx : x.2 = s <;> simp [hx]
    · rw [if_neg hc, List.filter_cons, List.filter_cons, ih]
      by_cases hy : y.2 = s
      · have hx : x.2 ≠ s := fun hx => hc (le_of_eq (hy.trans hx.symm))
        simp [hx, hy]
      · simp [hy]

omit [DecidableEq α] in
lemma filter_sortDesc [LinearOrder β] [DecidableEq β] (s : β) :
    ∀ l : List (α × β),
      (sortDesc l).filter (fun y => decide (y.2 = s))
        = l.filter (fun y => decide (y.2 = s)) := by
  intro l
  induction l with
  | nil => rfl
  | cons x l ih =>
    rw [sortDesc, List.foldr_cons, filter_insertDesc x s,
      show List.foldr insertDesc [] l = sortDesc l from rfl, ih,
      List.filter_cons]
    by_cases hx : x.2 = s <;> simp [hx]

/-- C4 counterexample: for the corpus discovered in order a.pdf ("p") then
b.pdf ("q"), the query "q p" scores both documents at `ln 2`, yet `search`
outputs b.pdf first — the tie is broken by the order scores were first
accumulated over the query tokens, not by document-discovery order. -/
theorem search_tiebreak_not_discovery_order :
    rank (indexRun ["a.pdf", "b.pdf"] tieExtract).1 "q p"
      = [("b.pdf", Real.log 2), ("a.pdf", Real.log 2)] ∧
    (rank (indexRun ["a.pdf", "b.pdf"] tieExtract).1 "q p").map Prod.fst
      ≠ ["a.pdf", "b.pdf"] := by
  have hacc : accumScores (indexRun ["a.pdf", "b.pdf"] tieExtract).1
      (tokenize "q p".toList)
      = [("b.pdf", 0 + weight 1 1 2 1), ("a.pdf", 0 + weight 1 1 2 1)] := rfl
  have hw : (0 : ℝ) + weight 1 1 2 1 = Real.log 2 := by
    rw [weight]
    norm_num
  have hr : rank (indexRun ["a.pdf", "b.pdf"] tieExtract).1 "q p"
      = [("b.pdf", Real.log 2), ("a.pdf", Real.log 2)] := by
    rw [rank, hacc, hw]
    rw [sortDesc, List.foldr_cons, List.foldr_cons, List.foldr_nil,
      insertDesc, insertDesc, if_pos (le_refl (Real.log 2))]
  refine ⟨hr, ?_⟩
  rw [hr]
  decide

/-- C4 amended: for every loaded index and every query, `search` outputs its
(document, cumulative score) pairs in descending score order, and ties are
broken by a deterministic stable order: the output is a permutation of the
accumulated score list — whose order is the order in which documents are
first encountered while iterating the query tokens' postings, the score
dictionary appending each document when it is first seen — and every class
of documents with equal scores keeps exactly that accumulation order; in
particular searching "dog" against the Scenario 1 index returns (a.pdf, 0)
then (b.pdf, 0). -/
theorem search_descending_and_scenario2 :
    (∀ (t : Tfidf) (q : String),
      List.Sorted (fun a b => b.2 ≤ a.2) (rank t q) ∧
      List.Perm (rank t q) (accumScores t (tokenize q.toList)) ∧
      ∀ s : ℝ, (rank t q).filter (fun x => decide (x.2 = s))
        = (accumScores t (tokenize q.toList)).filter
            (fun x => decide (x.2 = s))) ∧
    rank (indexRun ["a.pdf", "b.pdf"] scenario1Extract).1 "dog"
      = [("a.pdf", 0), ("b.pdf", 0)] := by
  constructor
  · intro t q
    refine ⟨?_, ?_, ?_⟩
    · rw [rank]
      exact sorted_sortDesc _
    · rw [rank]
      exact perm_sortDesc _
    · intro s
      rw [rank]
      exact filter_sortDesc s _
  · have hacc : accumScores (indexRun ["a.pdf", "b.pdf"] scenario1Extract).1
        (tokenize "dog".toList)
        = [("a.pdf", 0 + weight 1 3 2 2), ("b.pdf", 0 + weight 2 3 2 2)] := rfl
    have hw1 : (0 : ℝ) + weight 1 3 2 2 = 0 := by
      rw [weight]
      norm_num
    have hw2 : (0 : ℝ) + weight 2 3 2 2 = 0 := by
      rw [weight]
      norm_num
    rw [rank, hacc, hw1, hw2]
    rw [sortDesc, List.foldr_cons, List.foldr_cons, List.foldr_nil,
      insertDesc, insertDesc, if_pos (le_refl (0 : ℝ))]

end Megascops
